import Mathlib

/-!
Verification of the CrabNet model in `kingcrab.py` (sparks-baird/RoboCrab).

The Python/PyTorch source is shallowly embedded:
* index computations (rounding, flooring, masks) are over `ℚ` / `ℤ` / `ℕ`
  and are executable;
* tensor values (sinusoidal tables, linear layers, scalers) are over `ℝ`;
* tensors are total functions `ℕ → ℝ` (one compound per batch row — every
  operation in the source is batch-pointwise, so a single row is modelled);
* the in-place tensor assignments of `FractionalEncoder.forward` are
  additionally modelled with an explicit store (a list of tensors addressed
  by position) to settle the frame claims about `clone`.
-/

namespace RoboCrab

/-- Round-half-to-even on rationals, the rounding convention of
`torch.round` used in `FractionalEncoder.forward`. -/
def roundHalfEven (q : ℚ) : ℤ :=
  if q - ⌊q⌋ < 1 / 2 then ⌊q⌋
  else if 1 / 2 < q - ⌊q⌋ then ⌊q⌋ + 1
  else if 2 ∣ ⌊q⌋ then ⌊q⌋ else ⌊q⌋ + 1

theorem floor_le_roundHalfEven (q : ℚ) : ⌊q⌋ ≤ roundHalfEven q := by
  unfold roundHalfEven
  split
  · exact le_refl _
  · split
    · exact le_of_lt (lt_add_one _)
    · split
      · exact le_refl _
      · exact le_of_lt (lt_add_one _)

/-- Evaluation helper: once the floor of `q` is identified, `roundHalfEven`
reduces to a case split on the fractional part. -/
theorem roundHalfEven_of_floor (q : ℚ) (f : ℤ)
    (h1 : (f : ℚ) ≤ q) (h2 : q < f + 1) :
    roundHalfEven q =
      if q - f < 1 / 2 then f
      else if 1 / 2 < q - f then f + 1
      else if 2 ∣ f then f else f + 1 := by
  have hf : ⌊q⌋ = f := Int.floor_eq_iff.mpr ⟨h1, h2⟩
  unfold roundHalfEven
  rw [hf]

theorem roundHalfEven_le_ceil (q : ℚ) : roundHalfEven q ≤ ⌈q⌉ := by
  unfold roundHalfEven
  split
  · exact Int.floor_le_ceil q
  · rename_i h
    push_neg at h
    have hq : (⌊q⌋ : ℚ) < q := by linarith
    have hlt : ⌊q⌋ < ⌈q⌉ := Int.lt_ceil.mpr hq
    have h1 : ⌊q⌋ + 1 ≤ ⌈q⌉ := hlt
    split
    · exact h1
    · split
      · exact Int.floor_le_ceil q
      · exact h1

/-! ### FractionalEncoder (`kingcrab.py` lines 154–192) -/

/-- `self.d_model = d_model // 2` in `FractionalEncoder.__init__`. -/
def dHalf (dModel : ℕ) : ℕ := dModel / 2

/-- The sinusoidal lookup table `pe` built in `FractionalEncoder.__init__`:
row `i` is the quantization level, column `k < d_model // 2`.  Even columns
hold `sin(i / 50 ** (2*k/(d_model//2)))` and odd columns the corresponding
`cos`, mirroring the strided assignments
`pe[:, 0::2] = torch.sin(x / torch.pow(50, 2*fraction[:, 0::2]/self.d_model))`
and `pe[:, 1::2] = torch.cos(...)` (where `fraction[:, k] = k` and
`self.d_model` is the halved dimension). -/
noncomputable def peTable (dModel : ℕ) (i k : ℕ) : ℝ :=
  if k % 2 = 0 then
    Real.sin ((i : ℝ) / (50 : ℝ) ^ ((2 * k : ℝ) / (dHalf dModel : ℝ)))
  else
    Real.cos ((i : ℝ) / (50 : ℝ) ^ ((2 * k : ℝ) / (dHalf dModel : ℝ)))

/-- The spec's direct closed-form sinusoidal computation (claims about
`FractionalEncoder`): alternating sine (even dimensions) and cosine (odd
dimensions) of the quantization index divided by a frequency that decays
geometrically across the `d/2` feature axis with base 50.  Stated from the
spec's words, to be compared with `peTable`, which is translated from the
source. -/
noncomputable def specClosedFormRow (dModel : ℕ) (i k : ℕ) : ℝ :=
  if Even k then
    Real.sin ((i : ℝ) / (50 : ℝ) ^ ((2 * k : ℝ) / (dHalf dModel : ℝ)))
  else
    Real.cos ((i : ℝ) / (50 : ℝ) ^ ((2 * k : ℝ) / (dHalf dModel : ℝ)))

theorem peTable_eq_specClosedFormRow (dModel i k : ℕ) :
    peTable dModel i k = specClosedFormRow dModel i k := by
  unfold peTable specClosedFormRow
  rcases Nat.even_or_odd k with he | ho
  · rw [if_pos (Nat.even_iff.mp he), if_pos he]
  · have hk : k % 2 = 1 := Nat.odd_iff.mp ho
    rw [if_neg (by omega), if_neg (by rw [Nat.even_iff]; omega)]

/-- The in-place flooring `x[x < 1/self.resolution] = 1/self.resolution`
of `FractionalEncoder.forward`, applied to one entry. -/
def fracFloorQ (R : ℕ) (x : ℚ) : ℚ :=
  if x < 1 / (R : ℚ) then 1 / (R : ℚ) else x

/-- The table index computed by `FractionalEncoder.forward` in non-log
mode: `frac_idx = torch.round(x * self.resolution).to(long) - 1`, after the
flooring assignment. -/
def fracIdx (R : ℕ) (x : ℚ) : ℤ :=
  roundHalfEven (fracFloorQ R x * (R : ℚ)) - 1

/-- `FractionalEncoder.forward` in non-log mode, one input entry: the row
`self.pe[frac_idx]` of the sinusoidal table. -/
noncomputable def fracForward (dModel R : ℕ) (x : ℚ) : ℕ → ℝ :=
  fun k => peTable dModel (fracIdx R x).toNat k

/-- Claim C3 (counterexample): `FractionalEncoder.forward` does not return
table row `⌈x·R⌉ - 1`: at `x = 0.234`, `R = 100` the code rounds
`23.4` to `23` and returns row `22`, while `⌈23.4⌉ - 1 = 23`. -/
theorem claim3_counterexample :
    fracIdx 100 (234 / 1000) ≠ ⌈(234 / 1000 : ℚ) * 100⌉ - 1 := by
  have hL : fracIdx 100 (234 / 1000) = 22 := by
    unfold fracIdx fracFloorQ
    rw [if_neg (by norm_num)]
    have h : roundHalfEven ((234 / 1000 : ℚ) * ((100 : ℕ) : ℚ)) = 23 := by
      rw [roundHalfEven_of_floor _ 23 (by norm_num) (by norm_num)]
      norm_num
    rw [h]
    norm_num
  have hceil : ⌈(234 / 1000 : ℚ) * 100⌉ = 24 := by
    rw [Int.ceil_eq_iff]
    constructor <;> norm_num
  rw [hL, hceil]
  norm_num

/-- Claim C3 (amended): for `0 < x ≤ 1` and every feature dimension,
`FractionalEncoder.forward` in non-log mode returns table row
`round(x·R) - 1` (round half to even, after flooring small values to
`1/R`), and that row's entries equal the spec's direct closed-form
alternating sine/cosine computation at that quantization index. -/
theorem claim3_amended (dModel R : ℕ) (x : ℚ)
    (hR : 0 < R) (hx0 : 0 < x) (hx1 : x ≤ 1) :
    ∀ k, k < dHalf dModel →
      fracForward dModel R x k
        = specClosedFormRow dModel
            (roundHalfEven (fracFloorQ R x * (R : ℚ)) - 1).toNat k := by
  intro k _
  unfold fracForward fracIdx
  exact peTable_eq_specClosedFormRow dModel _ k

/-- Concrete instantiation of `claim3_amended` at `d_model = 4`,
`R = 100`, `x = 1/2`, dimension `k = 0`. -/
theorem claim3_amended_witness :
    fracForward 4 100 (1 / 2) 0
      = specClosedFormRow 4
          (roundHalfEven (fracFloorQ 100 (1 / 2) * (100 : ℚ)) - 1).toNat 0 :=
  claim3_amended 4 100 (1 / 2) (by decide) (by norm_num) (by norm_num) 0 (by decide)

/-- Claim C6: for every resolution `R` and every input `x < 1/R`,
`FractionalEncoder.forward` in non-log mode returns the same table row as
for input `x = 1/R` (the flooring invariant). -/
theorem claim6 (dModel R : ℕ) (x : ℚ) (hx : x < 1 / (R : ℚ)) :
    fracForward dModel R x = fracForward dModel R (1 / (R : ℚ)) := by
  unfold fracForward fracIdx fracFloorQ
  rw [if_pos hx, if_neg (lt_irrefl _)]

/-- Concrete instantiation of `claim6` at `d_model = 4`, `R = 100`,
`x = 1/200 < 1/100`. -/
theorem claim6_witness :
    fracForward 4 100 (1 / 200) = fracForward 4 100 (1 / (100 : ℚ)) :=
  claim6 4 100 (1 / 200) (by norm_num)

/-- Claim C9: in non-log mode the lookup index stays in range exactly for
bounded inputs — for every `x ≤ 1` the computed index lies in `[0, R)`
(the lookup succeeds), while for an entry `x > 1` whose rounded product
exceeds `R` the index is at least `R`, out of range of the `R`-row table:
there is no clamp above 1 in non-log mode. -/
theorem claim9 (R : ℕ) (x : ℚ) (hR : 1 ≤ R) :
    (x ≤ 1 → 0 ≤ fracIdx R x ∧ fracIdx R x < (R : ℤ)) ∧
    (1 < x → (R : ℤ) < roundHalfEven (x * (R : ℚ)) →
      (R : ℤ) ≤ fracIdx R x) := by
  have hRpos : (0 : ℚ) < (R : ℚ) := by exact_mod_cast hR
  have hRone : (1 : ℚ) / (R : ℚ) ≤ 1 := by
    rw [div_le_one hRpos]; exact_mod_cast hR
  constructor
  · intro hx
    unfold fracIdx
    constructor
    · have h1 : (1 : ℚ) / (R : ℚ) ≤ fracFloorQ R x := by
        unfold fracFloorQ
        split
        · exact le_refl _
        · rename_i hn; push_neg at hn; exact hn
      have h2 : (1 : ℚ) ≤ fracFloorQ R x * (R : ℚ) := by
        have hm := mul_le_mul_of_nonneg_right h1 (le_of_lt hRpos)
        have hone : (1 : ℚ) / (R : ℚ) * (R : ℚ) = 1 := by
          field_simp
        linarith
      have h3 : (1 : ℤ) ≤ ⌊fracFloorQ R x * (R : ℚ)⌋ :=
        Int.le_floor.mpr (by exact_mod_cast h2)
      have h4 := floor_le_roundHalfEven (fracFloorQ R x * (R : ℚ))
      omega
    · have h1 : fracFloorQ R x ≤ 1 := by
        unfold fracFloorQ
        split
        · exact hRone
        · exact hx
      have h2 : fracFloorQ R x * (R : ℚ) ≤ (R : ℚ) := by
        have hm := mul_le_mul_of_nonneg_right h1 (le_of_lt hRpos)
        linarith
      have h3 : ⌈fracFloorQ R x * (R : ℚ)⌉ ≤ (R : ℤ) :=
        Int.ceil_le.mpr (by exact_mod_cast h2)
      have h4 := roundHalfEven_le_ceil (fracFloorQ R x * (R : ℚ))
      omega
  · intro hx hrnd
    unfold fracIdx fracFloorQ
    rw [if_neg (by push_neg; linarith)]
    omega

/-- Concrete instantiation of `claim9`: at `R = 100` the index for
`x = 1/2` is in range, and for `x = 2` (rounded product `200 > 100`) the
index is at least `100`. -/
theorem claim9_witness :
    (0 ≤ fracIdx 100 (1 / 2) ∧ fracIdx 100 (1 / 2) < (100 : ℤ)) ∧
    (100 : ℤ) ≤ fracIdx 100 2 :=
  ⟨(claim9 100 (1 / 2) (by decide)).1 (by norm_num),
   (claim9 100 2 (by decide)).2 (by norm_num) (by
     have h : roundHalfEven ((2 : ℚ) * ((100 : ℕ) : ℚ)) = 200 := by
       rw [roundHalfEven_of_floor _ 200 (by norm_num) (by norm_num)]
       norm_num
     rw [h]
     norm_num)⟩

/-! ### Log-mode FractionalEncoder and the Encoder positional encodings -/

/-- Round-half-to-even on reals, for the log-mode index (whose input goes
through `log2` and so is not rational). -/
noncomputable def rheR (r : ℝ) : ℤ :=
  if r - ⌊r⌋ < 1 / 2 then ⌊r⌋
  else if 1 / 2 < r - ⌊r⌋ then ⌊r⌋ + 1
  else if 2 ∣ ⌊r⌋ then ⌊r⌋ else ⌊r⌋ + 1

/-- `FractionalEncoder.forward` in log mode, one input entry:
`x = 0.0025 * (torch.log2(x)) ** 2`, then the in-place clamp
`x[x > 1] = 1`, the in-place flooring `x[x < 1/R] = 1/R`, and the lookup
of row `round(x*R) - 1`. -/
noncomputable def fracForwardLog (dModel R : ℕ) (x : ℝ) : ℕ → ℝ :=
  let y : ℝ := 0.0025 * (Real.logb 2 x) ^ 2
  let y1 : ℝ := if 1 < y then 1 else y
  let y2 : ℝ := if y1 < 1 / (R : ℝ) then 1 / (R : ℝ) else y1
  fun k => peTable dModel (rheR (y2 * (R : ℝ)) - 1).toNat k

/-- Slice assignment `t[..., lo:hi] = u` on the feature axis: entries in
`[lo, hi)` come from `u` (re-indexed from the slice origin), the rest keep
the base tensor's values. -/
def sliceAssign (lo hi : ℕ) (base new : ℕ → ℝ) : ℕ → ℝ :=
  fun k => if lo ≤ k ∧ k < hi then new (k - lo) else base k

/-- The learned exponential scaler `2 ** (1 - scaler) ** 2` of
`Encoder.forward` (Python `**` associates to the right, so this is
`2 ^ ((1 - scaler) ^ 2)`). -/
noncomputable def peScaler (s : ℝ) : ℝ := (2 : ℝ) ^ ((1 - s) ^ 2)

/-- `pe` of `Encoder.forward` for one slot: a zero row with
`pe[:, :, :self.d_model // 2] = self.pe(frac) * pe_scaler` (the
linear-scale fractional encoding). -/
noncomputable def peFull (dModel R : ℕ) (s : ℝ) (x : ℚ) : ℕ → ℝ :=
  sliceAssign 0 (dModel / 2) (fun _ => 0)
    (fun k => fracForward dModel R x k * peScaler s)

/-- `ple` of `Encoder.forward` for one slot: a zero row with
`ple[:, :, self.d_model // 2:] = self.ple(frac) * ple_scaler` (the
log-scale fractional encoding). -/
noncomputable def pleFull (dModel R : ℕ) (s : ℝ) (x : ℝ) : ℕ → ℝ :=
  sliceAssign (dModel / 2) dModel (fun _ => 0)
    (fun k => fracForwardLog dModel R x k * peScaler s)

/-- Claim C8: the linear-scale fractional encoding populates exactly the
first half of the model-dimension axis (indices `0` to `d_model/2 - 1`)
and the log-scale encoding exactly the second half, each multiplied by its
own scalar `2^((1 - scaler)^2)`. -/
theorem claim8 (dModel R : ℕ) (s sl : ℝ) (x : ℚ) (k : ℕ) :
    (k < dModel / 2 →
      peFull dModel R s x k = fracForward dModel R x k * peScaler s ∧
      pleFull dModel R sl ((x : ℝ)) k = 0) ∧
    (dModel / 2 ≤ k → k < dModel →
      peFull dModel R s x k = 0 ∧
      pleFull dModel R sl ((x : ℝ)) k
        = fracForwardLog dModel R ((x : ℝ)) (k - dModel / 2) * peScaler sl) := by
  unfold peFull pleFull sliceAssign
  constructor
  · intro hk
    constructor
    · rw [if_pos ⟨Nat.zero_le k, hk⟩, Nat.sub_zero]
    · rw [if_neg (by omega)]
  · intro hk1 hk2
    constructor
    · rw [if_neg (by omega)]
    · rw [if_pos ⟨hk1, hk2⟩]

/-- Concrete instantiation of `claim8` at `d_model = 4`, `R = 100`,
scalers `1`, `x = 1/2`, dimensions `k = 0` (first half) and `k = 3`
(second half). -/
theorem claim8_witness :
    peFull 4 100 1 (1 / 2) 0 = fracForward 4 100 (1 / 2) 0 * peScaler 1 ∧
    pleFull 4 100 1 (((1 / 2 : ℚ) : ℝ)) 3
      = fracForwardLog 4 100 (((1 / 2 : ℚ) : ℝ)) 1 * peScaler 1 :=
  ⟨((claim8 4 100 1 1 (1 / 2) 0).1 (by decide)).1,
   ((claim8 4 100 1 1 (1 / 2) 3).2 (by decide) (by decide)).2⟩

/-! ### Encoder masking (`kingcrab.py` lines 221–277) -/

/-- The extended fractional-abundance vector of `Encoder.forward`:
`frac = torch.cat([frac, ones / nrobo_feat], dim=1)` — the per-element
fractions followed by `nrobo` uniform filler entries `1/nrobo`. -/
def extFrac (frac : List ℚ) (nrobo : ℕ) : List ℚ :=
  frac ++ List.replicate nrobo (1 / (nrobo : ℚ))

/-- Entry `(i, 0)` of the thresholded outer-product presence mask of
`Encoder.forward` (`mask = matmul(frac.unsqueeze(-1), frac.transpose)`;
`mask[mask != 0] = 1`; `hmask = mask[:, :, 0:1].repeat(...)`): the slot-`i`
value is `1` iff `frac[i] * frac[0] ≠ 0`. -/
def hmaskCol (fe : List ℚ) (i : ℕ) : Bool :=
  decide (fe.getD i 0 * fe.getD 0 0 ≠ 0)

/-- The final masking step `x = x.masked_fill(hmask == 0, 0)` of
`Encoder.forward`: slot `i`'s row survives when its `hmask` entry is 1 and
is zeroed otherwise. -/
def maskStep (fe : List ℚ) (x : List (ℕ → ℝ)) : List (ℕ → ℝ) :=
  (List.range x.length).map fun i =>
    fun k => if hmaskCol fe i then (x.getD i fun _ => 0) k else 0

/-- `getD` of a mapped range. -/
theorem getD_map_range {α : Type} (n : ℕ) (f : ℕ → α) (d : α) (i : ℕ)
    (h : i < n) : ((List.range n).map f).getD i d = f i := by
  rw [List.getD_eq_getElem?_getD, List.getElem?_map, List.getElem?_range h]
  rfl

/-- Claim C4 (counterexample): with extended fractional vector `[0, 1/2]`
(slot 0 absent, slot 1 present with weight `1/2`) and an all-ones input,
the final masking step zeroes slot 1's whole row even though that slot's
fractional weight is nonzero — the mask column used is column 0, so a zero
weight in slot 0 wipes every slot. -/
theorem claim4_counterexample :
    (∀ k, ((maskStep (extFrac [0, 1 / 2] 0)
        [fun _ => (1 : ℝ), fun _ => (1 : ℝ)]).getD 1 fun _ => 0) k = 0) ∧
    (extFrac [0, 1 / 2] 0).getD 1 0 ≠ 0 := by
  constructor
  · intro k
    have h : hmaskCol (extFrac [0, 1 / 2] 0) 1 = false := by
      unfold hmaskCol extFrac
      simp
    unfold maskStep
    rw [getD_map_range _ _ _ 1 (by simp)]
    rw [h]
    simp
  · unfold extFrac
    norm_num

/-- Claim C4 (amended): provided the first slot's extended fractional
weight is nonzero, the masking step zeroes exactly the slots of zero
fractional weight — every zero-weight slot's row becomes all zeros, and
every nonzero-weight slot's row passes through unchanged. -/
theorem claim4_amended (frac : List ℚ) (nrobo : ℕ) (x : List (ℕ → ℝ)) (i : ℕ)
    (h0 : (extFrac frac nrobo).getD 0 0 ≠ 0) (hi : i < x.length) :
    ((extFrac frac nrobo).getD i 0 = 0 →
      ∀ k, ((maskStep (extFrac frac nrobo) x).getD i fun _ => 0) k = 0) ∧
    ((extFrac frac nrobo).getD i 0 ≠ 0 →
      ∀ k, ((maskStep (extFrac frac nrobo) x).getD i fun _ => 0) k
        = (x.getD i fun _ => 0) k) := by
  constructor
  · intro hz k
    have hm : hmaskCol (extFrac frac nrobo) i = false := by
      unfold hmaskCol
      rw [hz]
      simp
    unfold maskStep
    rw [getD_map_range _ _ _ i hi, hm]
    simp
  · intro hnz k
    have hm : hmaskCol (extFrac frac nrobo) i = true := by
      unfold hmaskCol
      rw [decide_eq_true_iff]
      exact mul_ne_zero hnz h0
    unfold maskStep
    rw [getD_map_range _ _ _ i hi, hm]
    simp

/-- Concrete instantiation of `claim4_amended`: extended fractions
`[1/2, 1]` (all nonzero), slot 1 passes through the masking step
unchanged. -/
theorem claim4_amended_witness :
    ((maskStep (extFrac [1 / 2] 1)
        [fun _ => (1 : ℝ), fun _ => (1 : ℝ)]).getD 1 fun _ => 0) 0
      = ((([fun _ => (1 : ℝ), fun _ => (1 : ℝ)] : List (ℕ → ℝ)).getD 1
          fun _ => 0)) 0 :=
  (claim4_amended [1 / 2] 1 [fun _ => 1, fun _ => 1] 1
    (by unfold extFrac; norm_num) (by decide)).2
    (by unfold extFrac; norm_num) 0

/-! ### CrabNet masking, averaging and uncertainty head
(`kingcrab.py` lines 287–377) -/

/-- The combined presence mask of `CrabNet.forward`:
`torch.cat([emask, cmask, bmask, fmask], dim=1)` with `emask = src == 0`,
`cmask` all-false zeros (categorical slots always present),
`bmask = bool_src == 0`, and `fmask` all-false zeros (numeric slots always
present).  `true` marks an absent slot. -/
def combinedMask (src : List ℕ) (nCat : ℕ) (boolSrc : List ℕ)
    (nFloat : ℕ) : List Bool :=
  src.map (fun v => v == 0) ++ List.replicate nCat false
    ++ boolSrc.map (fun v => v == 0) ++ List.replicate nFloat false

/-- The averaging denominator `(~mask).sum(dim=1)` of `CrabNet.forward`:
the number of non-masked entries of the combined mask (the mask is
repeated across the `out_dims` axis, so the count is the same for every
output dimension). -/
def avgDenom (src : List ℕ) (nCat : ℕ) (boolSrc : List ℕ)
    (nFloat : ℕ) : ℕ :=
  (combinedMask src nCat boolSrc nFloat).count false

/-- The spec's description of the denominator: the count of present
slots — elemental slots with index ≠ 0, every categorical and numeric
slot, and boolean slots with index ≠ 0.  Stated from the spec's words, to
be compared with `avgDenom`, which is translated from the source. -/
def specPresentCount (src : List ℕ) (nCat : ℕ) (boolSrc : List ℕ)
    (nFloat : ℕ) : ℕ :=
  src.countP (fun v => v != 0) + nCat + boolSrc.countP (fun v => v != 0)
    + nFloat

theorem count_false_map_eqz (l : List ℕ) :
    (l.map (fun v => v == 0)).count false = l.countP (fun v => v != 0) := by
  induction l with
  | nil => rfl
  | cons a t ih =>
    by_cases h : a = 0
    · subst h
      simp [List.count_cons, List.countP_cons, ih]
    · simp [List.count_cons, List.countP_cons, ih, h]

/-- Claim C2: the averaging denominator of `CrabNet.forward` equals the
count of present slots in the combined mask, and a compound with no
present slots at all (no elemental index ≠ 0, no boolean index ≠ 0, no
categorical and no numeric slots) drives that denominator to zero — the
division `output.sum(dim=1) / (~mask).sum(dim=1)` is unguarded. -/
theorem claim2 :
    (∀ (src : List ℕ) (nCat : ℕ) (boolSrc : List ℕ) (nFloat : ℕ),
      avgDenom src nCat boolSrc nFloat
        = specPresentCount src nCat boolSrc nFloat) ∧
    avgDenom [0] 0 [0] 0 = 0 := by
  constructor
  · intro src nCat boolSrc nFloat
    unfold avgDenom specPresentCount combinedMask
    rw [List.count_append, List.count_append, List.count_append,
      count_false_map_eqz, count_false_map_eqz,
      List.count_replicate_self, List.count_replicate_self]
  · rfl

/-- First-chunk length of `torch.chunk(2, dim=-1)` on a length-`n` axis:
`⌈n/2⌉` (torch makes every chunk but the last of size `⌈n/2⌉`). -/
def chunkFst (n : ℕ) : ℕ := (n + 1) / 2

/-- Width of the tensor returned by `CrabNet.forward`: the width of the
first chunk of the averaged head output. -/
def headWidth (n : ℕ) : ℕ := chunkFst n

/-- `torch.sigmoid`, the logistic transform. -/
noncomputable def sigmoid (z : ℝ) : ℝ := 1 / (1 + Real.exp (-z))

/-- The uncertainty head at the end of `CrabNet.forward`:
`output, logits = output.chunk(2, dim=-1)`;
`probability = torch.ones_like(output)`;
`probability[:, :logits.shape[-1]] = torch.sigmoid(logits)`;
`output = output * probability` — entry `j` of the returned row. -/
noncomputable def crabHead (n : ℕ) (avg : ℕ → ℝ) : ℕ → ℝ :=
  fun j =>
    avg j * (if j < n - chunkFst n then sigmoid (avg (chunkFst n + j)) else 1)

/-- Claim C1 (counterexample): at the model's default configuration
`out_dims = 3`, `chunk(2, dim=-1)` does not split the averaged output into
two equal halves — the value chunk has width `2` and the logit chunk width
`1` — and the returned width is `2`, not `out_dims/2`. -/
theorem claim1_counterexample :
    chunkFst 3 ≠ 3 - chunkFst 3 ∧ headWidth 3 ≠ 3 / 2 := by
  decide

/-! ### ResidualNetwork (`kingcrab.py` lines 16–52) -/

/-- A `torch.nn.Linear` layer: weight matrix (output index × input index)
and bias vector. -/
structure LinearM where
  w : ℕ → ℕ → ℝ
  b : ℕ → ℝ

/-- Apply a linear layer to a feature vector of width `dIn`. -/
noncomputable def LinearM.apply (L : LinearM) (dIn : ℕ) (x : ℕ → ℝ) :
    ℕ → ℝ :=
  fun o => (∑ i ∈ Finset.range dIn, L.w o i * x i) + L.b o

/-- Apply a bias-free linear layer (`nn.Linear(..., bias=False)`). -/
noncomputable def LinearM.applyNoBias (L : LinearM) (dIn : ℕ) (x : ℕ → ℝ) :
    ℕ → ℝ :=
  fun o => ∑ i ∈ Finset.range dIn, L.w o i * x i

/-- The residual branch of a `ResidualNetwork` sub-layer: `nn.Identity()`
when the consecutive dims are equal, otherwise a bias-free linear
projection. -/
inductive ResBranch where
  | idBranch : ResBranch
  | proj : LinearM → ResBranch

/-- `torch.nn.LeakyReLU()` with its default negative slope `0.01`. -/
noncomputable def leakyRelu (x : ℝ) : ℝ := if x < 0 then 0.01 * x else x

/-- One sub-layer of `ResidualNetwork.forward`:
`fea = act(fc(fea)) + res_fc(fea)`. -/
structure RNLayer where
  fc : LinearM
  res : ResBranch
  dIn : ℕ

noncomputable def RNLayer.apply (l : RNLayer) (x : ℕ → ℝ) : ℕ → ℝ :=
  fun o =>
    leakyRelu ((l.fc.apply l.dIn x) o) +
      (match l.res with
        | ResBranch.idBranch => x o
        | ResBranch.proj L => (L.applyNoBias l.dIn x) o)

/-- A `ResidualNetwork`: the chain of residual sub-layers and the final
`fc_out` linear layer with its input width (`dims[-1]`). -/
structure ResidualNetworkM where
  layers : List RNLayer
  fcOut : LinearM
  fcOutIn : ℕ

/-- `ResidualNetwork.forward`: fold the sub-layers over the input, then
apply `fc_out`. -/
noncomputable def ResidualNetworkM.forward (p : ResidualNetworkM)
    (x : ℕ → ℝ) : ℕ → ℝ :=
  p.fcOut.apply p.fcOutIn (p.layers.foldl (fun fea l => l.apply fea) x)

/-- `ResidualNetwork.__init__`: `dims = [input_dim] + hidden_layer_dims`;
one sub-layer per consecutive dimension pair, with an identity residual
branch when the pair's dims agree and a bias-free projection otherwise;
`fc_out` maps from `dims[-1]` to the output dimension.  `fcW i` / `resW i`
supply the learned weights of the `i`-th sub-layer (output widths are
implicit — vectors are total functions). -/
def mkResidualNetwork (inputDim : ℕ) (hidden : List ℕ)
    (fcW resW : ℕ → LinearM) (fcOut : LinearM) : ResidualNetworkM :=
  let dims := inputDim :: hidden
  { layers := (List.range (dims.length - 1)).map fun i =>
      { fc := fcW i
        res := if dims.getD i 0 = dims.getD (i + 1) 0
          then ResBranch.idBranch else ResBranch.proj (resW i)
        dIn := dims.getD i 0 }
    fcOut := fcOut
    fcOutIn := dims.getLastD 0 }

/-- Claim C7: a `ResidualNetwork` built with `hidden_layer_dims = []` has
no hidden residual blocks and its forward function is exactly the single
final linear (affine) map from the input dimension — no activation, no
residual connection. -/
theorem claim7 (inputDim : ℕ) (fcW resW : ℕ → LinearM) (fcOut : LinearM)
    (x : ℕ → ℝ) :
    (mkResidualNetwork inputDim [] fcW resW fcOut).layers = [] ∧
    (mkResidualNetwork inputDim [] fcW resW fcOut).forward x
      = fcOut.apply inputDim x := by
  constructor
  · rfl
  · rfl

/-! ### The full model: Embedder, Encoder, CrabNet
(`kingcrab.py` lines 55–124, 196–278, 287–377; one compound per batch
row — every operation is batch-pointwise) -/

/-- Parameters of `Embedder`: the elemental embedding table `cbfv` (row 0
all zeros, rows 1.. loaded element feature vectors), the structural
boolean table `sbfv` (row 0 zeros, the rest ones), the `fc_mat2vec`
projection, and the common feature width. -/
structure EmbedderP where
  cbfv : ℕ → ℕ → ℝ
  sbfv : ℕ → ℕ → ℝ
  fcMat2vec : LinearM
  featSize : ℕ

/-- `Embedder.forward`: elemental and boolean embedding lookups,
categorical and numeric scalars broadcast across the feature width
(`feat.unsqueeze(2).repeat([1, 1, feat_width])`), concatenation along the
slot axis in the order `[mat2vec_emb, cat_feat, bool_emb, float_feat]`,
then `fc_mat2vec` applied to every slot. -/
noncomputable def embedderForward (p : EmbedderP) (src : List ℕ)
    (catFeat : List ℝ) (boolSrc : List ℕ) (floatFeat : List ℝ) :
    List (ℕ → ℝ) :=
  let m2v := src.map p.cbfv
  let bemb := boolSrc.map p.sbfv
  let catRep := catFeat.map (fun v => fun _ => v)
  let fltRep := floatFeat.map (fun v => fun _ => v)
  (m2v ++ catRep ++ bemb ++ fltRep).map
    (fun row => p.fcMat2vec.apply p.featSize row)

/-- Parameters of `Encoder` (constructed by `CrabNet` with `frac=False`,
`attn=True` and two resolution-5000 fractional encoders): the embedder,
the three learned scalers, the feature flags, the model dimension, and the
self-attention stack.  The stack (`nn.TransformerEncoder`, library code
not part of this repository) is modelled from the spec: per §4.4/§5 it is
a pure, stateless map of the slot sequence given the padding mask. -/
structure EncoderP where
  embed : EmbedderP
  dModel : ℕ
  embScaler : ℝ
  posScaler : ℝ
  posScalerLog : ℝ
  fractional : Bool
  attention : Bool
  transformer : List (ℕ → ℝ) → List Bool → List (ℕ → ℝ)

/-- The padding mask `src_mask = mask[:, 0] != 1` handed to the attention
stack: `true` (excluded) for slots `i` with `frac[0] * frac[i] = 0`. -/
def srcMaskRow (fe : List ℚ) (n : ℕ) : List Bool :=
  (List.range n).map fun i => decide (fe.getD 0 0 * fe.getD i 0 = 0)

/-- `Encoder.forward` (one compound): the `2 ** emb_scaler`-scaled
embedding, the extended fractional vector, the two positional encodings on
the two halves of the feature axis, the attention stack on their sum
(under `self.attention`), optional fractional weighting (under
`self.fractional`), and the final masking step. -/
noncomputable def encoderForward (p : EncoderP) (src : List ℕ)
    (frac : List ℚ) (catFeat : List ℝ) (boolSrc : List ℕ)
    (floatFeat : List ℝ) : List (ℕ → ℝ) :=
  let x0 := embedderForward p.embed src catFeat boolSrc floatFeat
  let x1 := x0.map fun row => fun k => row k * (2 : ℝ) ^ p.embScaler
  let nrobo := x1.length - src.length
  let fe := extFrac frac nrobo
  let x2 :=
    if p.attention then
      let xsrc := (List.range x1.length).map fun i => fun k =>
        (x1.getD i fun _ => 0) k
          + peFull p.dModel 5000 p.posScaler (fe.getD i 0) k
          + pleFull p.dModel 5000 p.posScalerLog (((fe.getD i 0 : ℚ) : ℝ)) k
      p.transformer xsrc (srcMaskRow fe x1.length)
    else x1
  let x3 :=
    if p.fractional then
      (List.range x2.length).map fun i => fun k =>
        (x2.getD i fun _ => 0) k * ((fe.getD i 0 : ℚ) : ℝ)
    else x2
  maskStep fe x3

/-- Parameters of `CrabNet`: the output width `out_dims`, the encoder,
and the `ResidualNetwork` prediction head. -/
structure CrabNetP where
  outDims : ℕ
  encoder : EncoderP
  outputNN : ResidualNetworkM

/-- The masked averaging stage of `CrabNet.forward`:
`output = output.masked_fill(mask, 0)` then
`output = output.sum(dim=1) / (~mask).sum(dim=1)` (entry `j`). -/
noncomputable def crabAvg (p : CrabNetP) (src : List ℕ) (frac : List ℚ)
    (catFeat : List ℝ) (boolSrc : List ℕ) (floatFeat : List ℝ) : ℕ → ℝ :=
  let enc := encoderForward p.encoder src frac catFeat boolSrc floatFeat
  let out := enc.map p.outputNN.forward
  let m := combinedMask src catFeat.length boolSrc floatFeat.length
  fun j =>
    (∑ s ∈ Finset.range out.length,
        if m.getD s false then 0 else (out.getD s fun _ => 0) j)
      / (avgDenom src catFeat.length boolSrc floatFeat.length : ℝ)

/-- `CrabNet.forward` (one compound; `self.avg` is set to `True`
unconditionally in `__init__`): encoder, per-slot head, masked averaging,
then the uncertainty head. -/
noncomputable def crabForward (p : CrabNetP) (src : List ℕ) (frac : List ℚ)
    (catFeat : List ℝ) (boolSrc : List ℕ) (floatFeat : List ℝ) : ℕ → ℝ :=
  crabHead p.outDims (crabAvg p src frac catFeat boolSrc floatFeat)

/-- Claim C1 (amended): whenever `out_dims` is even, the averaged head
output is split by `chunk(2, dim=-1)` into two equal halves of width
`out_dims/2`, and `CrabNet.forward` returns the value half multiplied
elementwise by the sigmoid of the logit half.  At the default
`out_dims = 3` the chunks instead have widths 2 and 1 and the returned
width is 2 (see the counterexample). -/
theorem claim1_amended (p : CrabNetP) (src : List ℕ) (frac : List ℚ)
    (catFeat : List ℝ) (boolSrc : List ℕ) (floatFeat : List ℝ)
    (h2 : 2 ∣ p.outDims) :
    headWidth p.outDims = p.outDims / 2 ∧
    p.outDims - chunkFst p.outDims = p.outDims / 2 ∧
    ∀ j, j < p.outDims / 2 →
      crabForward p src frac catFeat boolSrc floatFeat j
        = crabAvg p src frac catFeat boolSrc floatFeat j
            * sigmoid
                (crabAvg p src frac catFeat boolSrc floatFeat
                  (p.outDims / 2 + j)) := by
  obtain ⟨m, hm⟩ := h2
  have hc : chunkFst p.outDims = p.outDims / 2 := by
    unfold chunkFst
    omega
  refine ⟨hc, by rw [hc]; omega, ?_⟩
  intro j hj
  unfold crabForward crabHead
  rw [hc]
  rw [if_pos (by omega)]

/-- Example parameter values used to instantiate the model-level claims:
all weights zero, identity attention stack, width-4 head. -/
noncomputable def exLinear : LinearM :=
  { w := fun _ _ => 0, b := fun _ => 0 }

/-- Example `CrabNet` parameters with even `out_dims = 4`. -/
noncomputable def exCrabP : CrabNetP :=
  { outDims := 4
    encoder :=
      { embed :=
          { cbfv := fun _ _ => 0
            sbfv := fun _ _ => 0
            fcMat2vec := exLinear
            featSize := 1 }
        dModel := 4
        embScaler := 0
        posScaler := 1
        posScalerLog := 1
        fractional := false
        attention := false
        transformer := fun x _ => x }
    outputNN := { layers := [], fcOut := exLinear, fcOutIn := 4 } }

/-- Concrete instantiation of `claim1_amended` at `out_dims = 4`,
output dimension `j = 0`. -/
theorem claim1_amended_witness :
    crabForward exCrabP [1] [1] [] [] [] 0
      = crabAvg exCrabP [1] [1] [] [] [] 0
          * sigmoid (crabAvg exCrabP [1] [1] [] [] [] 2) :=
  ((claim1_amended exCrabP [1] [1] [] [] [] (by decide)).2.2) 0 (by decide)

/-- `CrabNet.forward` with the module state threaded explicitly.  The
source's `forward` call tree reads `self.*` but never assigns a module
attribute; every in-place tensor write targets a tensor created inside the
call (the `matmul` product mask, the `ones_like` probability, the `clone`
in `FractionalEncoder.forward` — see the store-level model below), so the
translated call returns the module state it was given. -/
noncomputable def crabForwardSt (p : CrabNetP) (src : List ℕ)
    (frac : List ℚ) (catFeat : List ℝ) (boolSrc : List ℕ)
    (floatFeat : List ℝ) : (ℕ → ℝ) × CrabNetP :=
  (crabForward p src frac catFeat boolSrc floatFeat, p)

/-- Claim C5: calling `CrabNet.forward` twice with identical input tensors
and identical learned parameters yields identical outputs — the first call
leaves the module state unchanged, and the second call, run on the state
the first call left behind, produces the same output.  (The attention
stack is modelled from the spec as a pure stateless map; see
`EncoderP.transformer`.) -/
theorem claim5 (p : CrabNetP) (src : List ℕ) (frac : List ℚ)
    (catFeat : List ℝ) (boolSrc : List ℕ) (floatFeat : List ℝ) :
    (crabForwardSt p src frac catFeat boolSrc floatFeat).2 = p ∧
    (crabForwardSt (crabForwardSt p src frac catFeat boolSrc floatFeat).2
        src frac catFeat boolSrc floatFeat).1
      = (crabForwardSt p src frac catFeat boolSrc floatFeat).1 :=
  ⟨rfl, rfl⟩

/-! ### Frame effect of `FractionalEncoder.forward` (`x = x.clone()`) -/

/-- A heap of tensors: caller-visible tensors live at list positions;
`clone` and tensor-producing operations append fresh cells; in-place
assignments overwrite one cell. -/
abbrev Store := List (ℕ → ℝ)

/-- `FractionalEncoder.forward` with the tensor heap explicit; `a` is the
address of the caller's input tensor.  Steps, as in the source:
`x = x.clone()` allocates a fresh cell copying cell `a`; in log mode
`x = 0.0025 * (torch.log2(x)) ** 2` allocates a new tensor (rebinding the
local name) and `x[x > 1] = 1` overwrites that cell in place; the flooring
`x[x < 1/R] = 1/R` overwrites the current cell in place; the output reads
the table at row `round(x * R).long() - 1`, entrywise.  Returns the final
heap and the (slot, feature) output. -/
noncomputable def fracForwardStore (dModel R : ℕ) (log10 : Bool)
    (st : Store) (a : ℕ) : Store × (ℕ → ℕ → ℝ) :=
  let x0 := st.getD a fun _ => 0
  let st1 := st ++ [x0]
  let p2 : Store × ℕ :=
    match log10 with
    | true =>
      let y : ℕ → ℝ := fun s => 0.0025 * (Real.logb 2 (x0 s)) ^ 2
      ((st1 ++ [y]).set st1.length (fun s => if 1 < y s then 1 else y s),
        st1.length)
    | false => (st1, st.length)
  let xv := p2.1.getD p2.2 fun _ => 0
  let st3 := p2.1.set p2.2 fun s =>
    if xv s < 1 / (R : ℝ) then 1 / (R : ℝ) else xv s
  let xf := st3.getD p2.2 fun _ => 0
  (st3, fun s k => peTable dModel (rheR (xf s * (R : ℝ)) - 1).toNat k)

/-- Every caller-visible cell is untouched by `fracForwardStore`: all its
writes go to cells allocated inside the call. -/
theorem fracForwardStore_frame (dModel R : ℕ) (lg : Bool) (st : Store)
    (a b : ℕ) (hb : b < st.length) :
    (fracForwardStore dModel R lg st a).1.getD b (fun _ => 0)
      = st.getD b (fun _ => 0) := by
  unfold fracForwardStore
  cases lg with
  | false =>
    dsimp only
    rw [List.getD_eq_getElem?_getD,
      List.getElem?_set_ne (by omega),
      List.getElem?_append_left hb,
      ← List.getD_eq_getElem?_getD]
  | true =>
    dsimp only
    rw [List.getD_eq_getElem?_getD,
      List.getElem?_set_ne (by simp; omega),
      List.getElem?_set_ne (by simp; omega),
      List.getElem?_append_left (by simp; omega),
      List.getElem?_append_left hb,
      ← List.getD_eq_getElem?_getD]

/-- `fracForwardStore` only grows the heap. -/
theorem fracForwardStore_length (dModel R : ℕ) (lg : Bool) (st : Store)
    (a : ℕ) :
    st.length ≤ (fracForwardStore dModel R lg st a).1.length := by
  unfold fracForwardStore
  cases lg <;> simp

/-- Claim C10: `FractionalEncoder.forward` never mutates its input
tensor — it clones the argument before its in-place flooring/clamping
assignments, so every caller-visible tensor holds the same values after
the call as before; in particular the extended fractional vector is still
unchanged after the two positional-encoding calls of `Encoder.forward`
(the non-log `self.pe` call followed by the log-mode `self.ple` call on
the same tensor). -/
theorem claim10 (dModel R : ℕ) (lg : Bool) (st : Store) (a b : ℕ)
    (hb : b < st.length) :
    ((fracForwardStore dModel R lg st a).1.getD b fun _ => 0)
      = st.getD b (fun _ => 0) ∧
    ((fracForwardStore dModel 5000 true
          (fracForwardStore dModel 5000 false st a).1 a).1.getD b fun _ => 0)
      = st.getD b (fun _ => 0) := by
  refine ⟨fracForwardStore_frame dModel R lg st a b hb, ?_⟩
  rw [fracForwardStore_frame dModel 5000 true _ a b
      (lt_of_lt_of_le hb (fracForwardStore_length dModel 5000 false st a)),
    fracForwardStore_frame dModel 5000 false st a b hb]

/-- Concrete instantiation of `claim10`: a one-tensor heap; the caller's
tensor at address 0 is unchanged by a non-log call. -/
theorem claim10_witness :
    ((fracForwardStore 4 100 false [fun _ => (1 : ℝ)] 0).1.getD 0
        fun _ => 0)
      = ([fun _ => (1 : ℝ)] : Store).getD 0 (fun _ => 0) :=
  (claim10 4 100 false [fun _ => 1] 0 0 (by decide)).1

end RoboCrab
